import Mathlib

/-!
Shallow embedding of the semiconductor-Bloch-equation solver core
(`runscripts_cep/SBE.py`, with the older `SBE.py` variant where noted):
the driving pulse field, the gauge-dependent right-hand sides assembled by
`make_fnumba`, the initial-condition builder, the two-line mesh spacing and
the exact (Houston-basis) emission calculator.

Modelling conventions: machine floats become real numbers, complex numpy
arrays become lists of complex numbers read with `List.getD _ _ 0`
(out-of-range reads are settled separately where they matter), the external
band model (`sys`, `dipole`) becomes bundles of point-wise functions, and a
raising numpy operation becomes an `Option`/`Except` result.
-/

noncomputable section

/-- The two band-energy evaluators `sys.efjit[0]` (valence) and `sys.efjit[1]`
(conduction) of the external band model, as pure functions of `(kx, ky)`. -/
structure BandSys where
  evf : ℝ → ℝ → ℝ
  ecf : ℝ → ℝ → ℝ

/-- The six dipole-component evaluators `dipole.Axfjit`/`dipole.Ayfjit`
wired at the top of `make_fnumba`. -/
structure DipoleSys where
  di_00x : ℝ → ℝ → ℂ
  di_01x : ℝ → ℝ → ℂ
  di_11x : ℝ → ℝ → ℂ
  di_00y : ℝ → ℝ → ℂ
  di_01y : ℝ → ℝ → ℂ
  di_11y : ℝ → ℝ → ℂ

/-- `make_electric_field` from `runscripts_cep/SBE.py`: returns the closure
computing the chirped Gaussian driving pulse
`E0*np.exp(-t**2/(2*alpha)**2) * np.sin(2.0*np.pi*w*t*(1 + chirp*t) + phase)`. -/
def make_electric_field (E0 w alpha chirp phase : ℝ) : ℝ → ℝ :=
  fun t =>
    E0 * Real.exp (-t^2/(2*alpha)^2) * Real.sin (2*Real.pi*w*t*(1 + chirp*t) + phase)

/-- The pulse-field formula exactly as the specification states it:
`E(t) = E0 * exp(-t²/(2α)²) * sin(2π w t (1 + chirp·t) + phase)`. -/
def electric_field_spec (E0 w alpha chirp phase t : ℝ) : ℝ :=
  E0 * Real.exp (-t^2/(2*alpha)^2) * Real.sin (2*Real.pi*w*t*(1 + chirp*t) + phase)

/-- Forward-neighbour offset `m` computed inside the `flength` loop (and the
identical loop of `fnumba` in the older `SBE.py`): `m = 4*(k+1)` when `k == 0`,
`m = 0` when `k == Nk_path-1`, else `m = 4*(k+1)`. -/
def flength_m (Nk_path k : ℕ) : ℕ :=
  if k = 0 then 4*(k+1) else if k = Nk_path - 1 then 0 else 4*(k+1)

/-- Backward-neighbour offset `n` computed inside the `flength` loop:
`n = 4*(Nk_path-1)` when `k == 0`, else `n = 4*(k-1)`. -/
def flength_n (Nk_path k : ℕ) : ℕ :=
  if k = 0 then 4*(Nk_path-1) else if k = Nk_path - 1 then 4*(k-1) else 4*(k-1)

/-- One iteration of the `flength` update loop: the four components
`x[4k] .. x[4k+3]` written for k-index `k` (the conjugate component is built
from the freshly computed `x[4k+1]`, as in the source). -/
def flengthBlock (gamma1 gamma2 electric_f D : ℝ) (y y0 : List ℂ)
    (ecv_in_path : List ℝ) (dipole_in_path A_in_path : List ℂ)
    (Nk_path k : ℕ) : List ℂ :=
  let i := 4*k
  let m := flength_m Nk_path k
  let n := flength_n Nk_path k
  let ecv := ecv_in_path.getD k 0
  let wr := dipole_in_path.getD k 0 * (electric_f : ℂ)
  let wr_c := (starRingEnd ℂ) wr
  let wr_d_diag := A_in_path.getD k 0 * (electric_f : ℂ)
  let x1 := (Complex.I*(ecv : ℂ) - (gamma2 : ℂ) + Complex.I*wr_d_diag) * y.getD (i+1) 0
      - Complex.I*wr_c*(y.getD i 0 - y.getD (i+3) 0)
      + (D : ℂ)*(y.getD (m+1) 0 - y.getD (n+1) 0)
  [ ((2*(wr * y.getD (i+1) 0).im : ℝ) : ℂ) + (D : ℂ)*(y.getD m 0 - y.getD n 0)
      - (gamma1 : ℂ)*(y.getD i 0 - y0.getD i 0),
    x1,
    (starRingEnd ℂ) x1,
    ((-2*(wr * y.getD (i+1) 0).im : ℝ) : ℂ) + (D : ℂ)*(y.getD (m+3) 0 - y.getD (n+3) 0)
      - (gamma1 : ℂ)*(y.getD (i+3) 0 - y0.getD (i+3) 0) ]

/-- `flength` from `make_fnumba` in `runscripts_cep/SBE.py`: the length-gauge
right-hand side.  The state `y` is the flat array holding
`(f_v, p_vc, p_cv, f_c)` for each k-point followed by the accumulated vector
potential, whose derivative is `-E(t)`. -/
def flength (gamma1 gamma2 : ℝ) (electric_field : ℝ → ℝ) (t : ℝ) (y : List ℂ)
    (kpath : List (ℝ × ℝ)) (dk : ℝ) (ecv_in_path : List ℝ)
    (dipole_in_path A_in_path : List ℂ) (y0 : List ℂ) : List ℂ :=
  let electric_f := electric_field t
  let D := electric_f / (2*dk)
  let Nk_path := kpath.length
  (List.range Nk_path).flatMap
      (fun k => flengthBlock gamma1 gamma2 electric_f D y y0 ecv_in_path
        dipole_in_path A_in_path Nk_path k)
    ++ [((-electric_f : ℝ) : ℂ)]

/-- One iteration of the `fvelocity` update loop: identical to the length-gauge
update except that the k-space gradient term is absent and the coefficients are
supplied point-wise (they were just recomputed at the shifted coordinates). -/
def fvelocityBlock (gamma1 gamma2 electric_f : ℝ) (y y0 : List ℂ)
    (ecv_in_path : ℕ → ℝ) (dipole_in_path A_in_path : ℕ → ℂ) (k : ℕ) : List ℂ :=
  let i := 4*k
  let ecv := ecv_in_path k
  let wr := dipole_in_path k * (electric_f : ℂ)
  let wr_c := (starRingEnd ℂ) wr
  let wr_d_diag := A_in_path k * (electric_f : ℂ)
  let x1 := (Complex.I*(ecv : ℂ) - (gamma2 : ℂ) + Complex.I*wr_d_diag) * y.getD (i+1) 0
      - Complex.I*wr_c*(y.getD i 0 - y.getD (i+3) 0)
  [ ((2*(wr * y.getD (i+1) 0).im : ℝ) : ℂ) - (gamma1 : ℂ)*(y.getD i 0 - y0.getD i 0),
    x1,
    (starRingEnd ℂ) x1,
    ((-2*(wr * y.getD (i+1) 0).im : ℝ) : ℂ)
      - (gamma1 : ℂ)*(y.getD (i+3) 0 - y0.getD (i+3) 0) ]

/-- The shifted x coordinate computed at the top of `fvelocity`:
`k_shift = y[-1].real`, `kx = kpath[:,0] + E_dir[0]*k_shift`. -/
def fvelocity_kx (E_dir : ℝ × ℝ) (y : List ℂ) (kpath : List (ℝ × ℝ)) (k : ℕ) : ℝ :=
  (kpath.getD k (0,0)).1 + E_dir.1 * (y.getD (y.length - 1) 0).re

/-- The shifted y coordinate computed at the top of `fvelocity`:
`ky = kpath[:,1] + E_dir[1]*k_shift`. -/
def fvelocity_ky (E_dir : ℝ × ℝ) (y : List ℂ) (kpath : List (ℝ × ℝ)) (k : ℕ) : ℝ :=
  (kpath.getD k (0,0)).2 + E_dir.2 * (y.getD (y.length - 1) 0).re

/-- The transition energy recomputed by `fvelocity` at the shifted coordinates:
`ecv_in_path = ecf(kx, ky) - evf(kx, ky)` (shadowing the passed-in array). -/
def fvelocity_ecv (sys : BandSys) (E_dir : ℝ × ℝ) (y : List ℂ)
    (kpath : List (ℝ × ℝ)) (k : ℕ) : ℝ :=
  sys.ecf (fvelocity_kx E_dir y kpath k) (fvelocity_ky E_dir y kpath k)
    - sys.evf (fvelocity_kx E_dir y kpath k) (fvelocity_ky E_dir y kpath k)

/-- The transition dipole projection recomputed by `fvelocity` at the shifted
coordinates (zeros when `dipole_off` is set). -/
def fvelocity_dipole (dipole : DipoleSys) (E_dir : ℝ × ℝ) (dipole_off : Bool)
    (y : List ℂ) (kpath : List (ℝ × ℝ)) (k : ℕ) : ℂ :=
  if dipole_off then 0 else
    (E_dir.1 : ℂ) * dipole.di_01x (fvelocity_kx E_dir y kpath k) (fvelocity_ky E_dir y kpath k)
      + (E_dir.2 : ℂ) * dipole.di_01y (fvelocity_kx E_dir y kpath k) (fvelocity_ky E_dir y kpath k)

/-- The diagonal-dipole-difference projection recomputed by `fvelocity` at the
shifted coordinates (zeros when `dipole_off` is set). -/
def fvelocity_A (dipole : DipoleSys) (E_dir : ℝ × ℝ) (dipole_off : Bool)
    (y : List ℂ) (kpath : List (ℝ × ℝ)) (k : ℕ) : ℂ :=
  if dipole_off then 0 else
    (E_dir.1 : ℂ) * dipole.di_00x (fvelocity_kx E_dir y kpath k) (fvelocity_ky E_dir y kpath k)
      + (E_dir.2 : ℂ) * dipole.di_00y (fvelocity_kx E_dir y kpath k) (fvelocity_ky E_dir y kpath k)
      - ((E_dir.1 : ℂ) * dipole.di_11x (fvelocity_kx E_dir y kpath k) (fvelocity_ky E_dir y kpath k)
        + (E_dir.2 : ℂ) * dipole.di_11y (fvelocity_kx E_dir y kpath k) (fvelocity_ky E_dir y kpath k))

/-- `fvelocity` from `make_fnumba` in `runscripts_cep/SBE.py`: the
velocity-gauge right-hand side.  It shifts the path coordinates by the
accumulated vector potential `y[-1].real` along `E_dir`, recomputes
`ecv_in_path`, `dipole_in_path` and `A_in_path` at the shifted coordinates
(shadowing the passed-in arrays, exactly as the source rebinds them), and then
applies the per-k update with no gradient term. -/
def fvelocity (sys : BandSys) (dipole : DipoleSys) (E_dir : ℝ × ℝ)
    (dipole_off : Bool) (gamma1 gamma2 : ℝ) (electric_field : ℝ → ℝ)
    (t : ℝ) (y : List ℂ) (kpath : List (ℝ × ℝ)) (dk : ℝ)
    (ecv_in_path : List ℝ) (dipole_in_path A_in_path : List ℂ)
    (y0 : List ℂ) : List ℂ :=
  let ecv_in_path := fvelocity_ecv sys E_dir y kpath
  let dipole_in_path := fvelocity_dipole dipole E_dir dipole_off y kpath
  let A_in_path := fvelocity_A dipole E_dir dipole_off y kpath
  let electric_f := electric_field t
  let Nk_path := kpath.length
  (List.range Nk_path).flatMap
      (fun k => fvelocityBlock gamma1 gamma2 electric_f y y0 ecv_in_path
        dipole_in_path A_in_path k)
    ++ [((-electric_f : ℝ) : ℂ)]

/-- The common signature of both right-hand sides, as called by the ODE driver:
arguments `(t, y, kpath, dk, ecv_in_path, dipole_in_path, A_in_path, y0)`. -/
abbrev RHSfun :=
  ℝ → List ℂ → List (ℝ × ℝ) → ℝ → List ℝ → List ℂ → List ℂ → List ℂ → List ℂ

/-- `make_fnumba` from `runscripts_cep/SBE.py`: selects the right-hand side by
the gauge string, raising (`Except.error`) for any other selector before any
integration step can run.  The trivial wrapper `f` the source returns (it calls
`freturn` with unchanged arguments) is inlined. -/
def make_fnumba (sys : BandSys) (dipole : DipoleSys) (E_dir : ℝ × ℝ)
    (gamma1 gamma2 : ℝ) (electric_field : ℝ → ℝ) (gauge : String)
    (dipole_off : Bool) : Except String RHSfun :=
  if gauge = "length" then
    Except.ok (flength gamma1 gamma2 electric_field)
  else if gauge = "velocity" then
    Except.ok (fvelocity sys dipole E_dir dipole_off gamma1 gamma2 electric_field)
  else
    Except.error ("You have to either assign velocity or length gauge")

/-- The path-spacing computation `dk = length_path_in_BZ/(Nk_in_path-1)` from
`mesh` in `runscripts_cep/SBE.py` (the two-line mesh constructor). -/
def mesh_dk (length_path_in_BZ : ℝ) (Nk_in_path : ℕ) : ℝ :=
  length_path_in_BZ / ((Nk_in_path : ℝ) - 1)

/-- Numpy boolean-mask indexing `arr[mask]`, as used by `initial_condition`:
keeps the entries of `l` at the positions where `mask` holds, so the result is
shorter than `l` whenever the mask has a `false`. -/
def boolIndex (l : List ℝ) (mask : List Bool) : List ℝ :=
  ((l.zip mask).filter (fun p => p.2)).map (fun p => p.1)

/-- `np.array(rows).flatten('F')`: column-major flattening of a list of rows.
numpy only builds a rectangular array when the rows have equal length (a ragged
list of rows does not yield a numeric 2-d array and the surrounding pipeline
faults), so the ragged case is modelled as `none`. -/
def flattenF (rows : List (List ℝ)) : Option (List ℝ) :=
  if ∀ r ∈ rows, r.length = (rows.headD []).length then
    some ((List.range (rows.headD []).length).flatMap
      (fun j => rows.map (fun r => r.getD j 0)))
  else
    none

/-- `initial_condition` from `runscripts_cep/SBE.py`: valence occupation one and
coherences zero at every k-point; conduction occupation a Fermi-Dirac
distribution when `temperature > 1e-5`, and `ones[(e_fermi - e_c) < 0]`
(numpy boolean-mask indexing) otherwise. -/
def initial_condition (e_fermi temperature : ℝ) (e_c : List ℝ) : Option (List ℝ) :=
  let knum := e_c.length
  let ones := List.replicate knum (1:ℝ)
  let zeros := List.replicate knum (0:ℝ)
  if temperature > 1e-5 then
    let distrib := e_c.map (fun e => 1/(Real.exp ((e - e_fermi)/temperature) + 1))
    flattenF [ones, zeros, zeros, distrib]
  else
    let smaller_e_fermi := e_c.map (fun e => decide (e_fermi - e < 0))
    let distrib := boolIndex ones smaller_e_fermi
    flattenF [ones, zeros, zeros, distrib]

/-- The 16 point-wise evaluators wired in `make_emission_exact`: the entries of
the Hamiltonian k-derivative matrices along x and y (`sys.hderivfjit`), of the
eigenvector matrix `U` (`sys.Ujit`) and of its conjugate transpose `U_h`
(`sys.Ujit_h`).  In velocity gauge the shifted coordinates are complex because
the recorded vector-potential array has complex dtype, so the evaluators take
complex arguments. -/
structure EmissionSys where
  hdx_00 : ℂ → ℂ → ℂ
  hdx_01 : ℂ → ℂ → ℂ
  hdx_10 : ℂ → ℂ → ℂ
  hdx_11 : ℂ → ℂ → ℂ
  hdy_00 : ℂ → ℂ → ℂ
  hdy_01 : ℂ → ℂ → ℂ
  hdy_10 : ℂ → ℂ → ℂ
  hdy_11 : ℂ → ℂ → ℂ
  U_00 : ℂ → ℂ → ℂ
  U_01 : ℂ → ℂ → ℂ
  U_10 : ℂ → ℂ → ℂ
  U_11 : ℂ → ℂ → ℂ
  U_h_00 : ℂ → ℂ → ℂ
  U_h_01 : ℂ → ℂ → ℂ
  U_h_10 : ℂ → ℂ → ℂ
  U_h_11 : ℂ → ℂ → ℂ

/-- The two gauge selectors the emission calculator can be reached with (any
other string is rejected by `make_fnumba` before propagation even starts). -/
inductive Gauge
  | length
  | velocity

/-- A 2×2 complex matrix from its four entries, indexed as a function. -/
def mat2 (a b c d : ℂ) : Fin 2 → Fin 2 → ℂ :=
  fun i j => if i = 0 then (if j = 0 then a else b) else (if j = 0 then c else d)

/-- The numpy `@` product of two 2×2 complex matrices. -/
def mul2 (A B : Fin 2 → Fin 2 → ℂ) : Fin 2 → Fin 2 → ℂ :=
  fun i j => A i 0 * B 0 j + A i 1 * B 1 j

/-- The matrix built in the inner emission loop: first
`dH_U = (h_deriv_x*d1 + h_deriv_y*d2) @ U`, then `U_h @ dH_U`, with every
entry evaluated at the (possibly shifted) point `(kx, ky)`; `(d1, d2)` is the
field direction or its orthogonal. -/
def emission_UhHU (sys : EmissionSys) (kx ky : ℂ) (d1 d2 : ℝ) :
    Fin 2 → Fin 2 → ℂ :=
  let h_deriv_x := mat2 (sys.hdx_00 kx ky) (sys.hdx_01 kx ky)
    (sys.hdx_10 kx ky) (sys.hdx_11 kx ky)
  let h_deriv_y := mat2 (sys.hdy_00 kx ky) (sys.hdy_01 kx ky)
    (sys.hdy_10 kx ky) (sys.hdy_11 kx ky)
  let h_deriv_dir := fun (a b : Fin 2) =>
    h_deriv_x a b * (d1 : ℂ) + h_deriv_y a b * (d2 : ℂ)
  let U := mat2 (sys.U_00 kx ky) (sys.U_01 kx ky)
    (sys.U_10 kx ky) (sys.U_11 kx ky)
  let U_h := mat2 (sys.U_h_00 kx ky) (sys.U_h_01 kx ky)
    (sys.U_h_10 kx ky) (sys.U_h_11 kx ky)
  let dH_U := mul2 h_deriv_dir U
  mul2 U_h dH_U

/-- The amount the three accumulation statements of the inner emission loop add
to one direction's series at one `(k, path, time)` sample. -/
def emission_term (sys : EmissionSys) (kx ky : ℂ) (d1 d2 : ℝ)
    (fv fc pcv : ℂ) (fv_subs : ℝ) : ℝ :=
  (emission_UhHU sys kx ky d1 d2 0 0).re * (fv.re - fv_subs)
    + (emission_UhHU sys kx ky d1 d2 1 1).re * fc.re
    + 2*((emission_UhHU sys kx ky d1 d2 0 1) * pcv).re

/-- `emission_exact` from `make_emission_exact` in `runscripts_cep/SBE.py`,
evaluated at one output time index (each time index accumulates independently):
the pair of field-aligned and orthogonal emission values, accumulated over all
paths and k-points with the loop structure of the source (the three `+=`
statements per direction are grouped into `emission_term`).  `solution` is
read as `solution[i_k, i_path, i_time, component]` and `pathlen` is the
k-extent of the solution tensor. -/
def emission_exact (sys : EmissionSys) (paths : List (List (ℝ × ℝ)))
    (solution : ℕ → ℕ → ℕ → ℕ → ℂ) (E_dir : ℝ × ℝ) (A_field : ℕ → ℂ)
    (gauge : Gauge) (pathlen : ℕ) (i_time : ℕ) : ℝ × ℝ :=
  let E_ort : ℝ × ℝ := (E_dir.2, -E_dir.1)
  let kx_shift : ℂ := match gauge with
    | .length => 0
    | .velocity => A_field i_time * (E_dir.1 : ℂ)
  let ky_shift : ℂ := match gauge with
    | .length => 0
    | .velocity => A_field i_time * (E_dir.2 : ℂ)
  let fv_subs : ℝ := match gauge with
    | .length => 0
    | .velocity => 1
  List.foldl (fun acc i_path =>
    let path := paths.getD i_path []
    let kx := fun i_k => ((path.getD i_k (0,0)).1 : ℂ) + kx_shift
    let ky := fun i_k => ((path.getD i_k (0,0)).2 : ℂ) + ky_shift
    List.foldl (fun acc2 i_k =>
      ( acc2.1 + emission_term sys (kx i_k) (ky i_k) E_dir.1 E_dir.2
          (solution i_k i_path i_time 0) (solution i_k i_path i_time 3)
          (solution i_k i_path i_time 2) fv_subs,
        acc2.2 + emission_term sys (kx i_k) (ky i_k) E_ort.1 E_ort.2
          (solution i_k i_path i_time 0) (solution i_k i_path i_time 3)
          (solution i_k i_path i_time 2) fv_subs ))
      acc (List.range pathlen))
    ((0:ℝ),(0:ℝ)) (List.range paths.length)

/-- Length of a concatenation of constant-size-4 blocks. -/
lemma length_flatMap_blocks (f : ℕ → List ℂ) (hf : ∀ i, (f i).length = 4) :
    ∀ nn : ℕ, ((List.range nn).flatMap f).length = 4*nn := by
  intro nn
  induction nn with
  | zero => simp
  | succ m ih =>
    rw [List.range_succ, List.flatMap_append, List.length_append, ih]
    simp [hf]
    ring

/-- Reading component `r` of block `k` out of the flat right-hand-side vector. -/
lemma rhs_getD_block (f : ℕ → List ℂ) (hf : ∀ i, (f i).length = 4) (c : ℂ)
    (nn k r : ℕ) (hk : k < nn) (hr : r < 4) :
    (((List.range nn).flatMap f) ++ [c]).getD (4*k + r) 0 = (f k).getD r 0 := by
  induction nn with
  | zero => omega
  | succ m ih =>
    rw [List.range_succ, List.flatMap_append, List.append_assoc]
    rcases Nat.lt_succ_iff_lt_or_eq.mp hk with h | h
    · rw [List.getD_append]
      · have := ih h
        rw [List.getD_append] at this
        · exact this
        · rw [length_flatMap_blocks f hf]; omega
      · rw [length_flatMap_blocks f hf]; omega
    · subst h
      rw [List.getD_append_right]
      · rw [length_flatMap_blocks f hf]
        have h4 : 4*k + r - 4*k = r := by omega
        rw [h4]
        have : ([k].flatMap f ++ [c]).getD r 0 = (f k).getD r 0 := by
          have hfk : (f k).length = 4 := hf k
          have : [k].flatMap f ++ [c] = f k ++ [c] := by simp
          rw [this, List.getD_append]
          omega
        exact this
      · rw [length_flatMap_blocks f hf]; omega

/-- Reading the trailing vector-potential derivative out of the flat vector. -/
lemma rhs_getD_last (f : ℕ → List ℂ) (hf : ∀ i, (f i).length = 4) (c : ℂ)
    (nn : ℕ) :
    (((List.range nn).flatMap f) ++ [c]).getD (4*nn) 0 = c := by
  rw [List.getD_append_right]
  · rw [length_flatMap_blocks f hf]
    simp
  · rw [length_flatMap_blocks f hf]

/-- Reads past the end of the flat vector give the modelling default. -/
lemma rhs_getD_beyond (f : ℕ → List ℂ) (hf : ∀ i, (f i).length = 4) (c : ℂ)
    (nn j : ℕ) (hj : 4*nn + 1 ≤ j) :
    (((List.range nn).flatMap f) ++ [c]).getD j 0 = 0 := by
  have hlen : (((List.range nn).flatMap f) ++ [c]).length = 4*nn + 1 := by
    rw [List.length_append, length_flatMap_blocks f hf]
    simp
  have : (((List.range nn).flatMap f) ++ [c]).length ≤ j := by omega
  simp [List.getD_eq_getElem?_getD, List.getElem?_eq_none this]

/-- Every `flength` loop iteration writes exactly four components. -/
lemma flengthBlock_length (gamma1 gamma2 electric_f D : ℝ) (y y0 : List ℂ)
    (ecv_in_path : List ℝ) (dipole_in_path A_in_path : List ℂ)
    (Nk_path k : ℕ) :
    (flengthBlock gamma1 gamma2 electric_f D y y0 ecv_in_path dipole_in_path
      A_in_path Nk_path k).length = 4 := by
  simp [flengthBlock]

/-- Every `fvelocity` loop iteration writes exactly four components. -/
lemma fvelocityBlock_length (gamma1 gamma2 electric_f : ℝ) (y y0 : List ℂ)
    (ecv_in_path : ℕ → ℝ) (dipole_in_path A_in_path : ℕ → ℂ) (k : ℕ) :
    (fvelocityBlock gamma1 gamma2 electric_f y y0 ecv_in_path dipole_in_path
      A_in_path k).length = 4 := by
  simp [fvelocityBlock]


/-- Component `r` of block `k` of the length-gauge right-hand side. -/
lemma flength_getD_block (gamma1 gamma2 : ℝ) (E : ℝ → ℝ) (t : ℝ) (y : List ℂ)
    (kpath : List (ℝ × ℝ)) (dk : ℝ) (ecv_in_path : List ℝ)
    (dipole_in_path A_in_path : List ℂ) (y0 : List ℂ) (k r : ℕ)
    (hk : k < kpath.length) (hr : r < 4) :
    (flength gamma1 gamma2 E t y kpath dk ecv_in_path dipole_in_path
        A_in_path y0).getD (4*k+r) 0
      = (flengthBlock gamma1 gamma2 (E t) (E t/(2*dk)) y y0 ecv_in_path
          dipole_in_path A_in_path kpath.length k).getD r 0 := by
  show (((List.range kpath.length).flatMap
      (fun kk => flengthBlock gamma1 gamma2 (E t) (E t/(2*dk)) y y0 ecv_in_path
        dipole_in_path A_in_path kpath.length kk))
    ++ [((-(E t) : ℝ) : ℂ)]).getD (4*k+r) 0 = _
  exact rhs_getD_block _ (fun i => flengthBlock_length _ _ _ _ _ _ _ _ _ _ _) _ _ _ _ hk hr

/-- Component `r` of block `k` of the velocity-gauge right-hand side. -/
lemma fvelocity_getD_block (sys : BandSys) (dipole : DipoleSys) (E_dir : ℝ × ℝ)
    (dipole_off : Bool) (gamma1 gamma2 : ℝ) (E : ℝ → ℝ) (t : ℝ) (y : List ℂ)
    (kpath : List (ℝ × ℝ)) (dk : ℝ) (ecv_in_path : List ℝ)
    (dipole_in_path A_in_path : List ℂ) (y0 : List ℂ) (k r : ℕ)
    (hk : k < kpath.length) (hr : r < 4) :
    (fvelocity sys dipole E_dir dipole_off gamma1 gamma2 E t y kpath dk
        ecv_in_path dipole_in_path A_in_path y0).getD (4*k+r) 0
      = (fvelocityBlock gamma1 gamma2 (E t) y y0
          (fvelocity_ecv sys E_dir y kpath)
          (fvelocity_dipole dipole E_dir dipole_off y kpath)
          (fvelocity_A dipole E_dir dipole_off y kpath) k).getD r 0 := by
  show (((List.range kpath.length).flatMap
      (fun kk => fvelocityBlock gamma1 gamma2 (E t) y y0
        (fvelocity_ecv sys E_dir y kpath)
        (fvelocity_dipole dipole E_dir dipole_off y kpath)
        (fvelocity_A dipole E_dir dipole_off y kpath) kk))
    ++ [((-(E t) : ℝ) : ℂ)]).getD (4*k+r) 0 = _
  exact rhs_getD_block _ (fun i => fvelocityBlock_length _ _ _ _ _ _ _ _ _) _ _ _ _ hk hr

/-- The trailing component of the length-gauge right-hand side is `-E(t)`. -/
lemma flength_getD_last (gamma1 gamma2 : ℝ) (E : ℝ → ℝ) (t : ℝ) (y : List ℂ)
    (kpath : List (ℝ × ℝ)) (dk : ℝ) (ecv_in_path : List ℝ)
    (dipole_in_path A_in_path : List ℂ) (y0 : List ℂ) :
    (flength gamma1 gamma2 E t y kpath dk ecv_in_path dipole_in_path
        A_in_path y0).getD (4*kpath.length) 0 = ((-(E t) : ℝ) : ℂ) := by
  show (((List.range kpath.length).flatMap
      (fun kk => flengthBlock gamma1 gamma2 (E t) (E t/(2*dk)) y y0 ecv_in_path
        dipole_in_path A_in_path kpath.length kk))
    ++ [((-(E t) : ℝ) : ℂ)]).getD (4*kpath.length) 0 = _
  exact rhs_getD_last _ (fun i => flengthBlock_length _ _ _ _ _ _ _ _ _ _ _) _ _

/-- The trailing component of the velocity-gauge right-hand side is `-E(t)`. -/
lemma fvelocity_getD_last (sys : BandSys) (dipole : DipoleSys) (E_dir : ℝ × ℝ)
    (dipole_off : Bool) (gamma1 gamma2 : ℝ) (E : ℝ → ℝ) (t : ℝ) (y : List ℂ)
    (kpath : List (ℝ × ℝ)) (dk : ℝ) (ecv_in_path : List ℝ)
    (dipole_in_path A_in_path : List ℂ) (y0 : List ℂ) :
    (fvelocity sys dipole E_dir dipole_off gamma1 gamma2 E t y kpath dk
        ecv_in_path dipole_in_path A_in_path y0).getD (4*kpath.length) 0
      = ((-(E t) : ℝ) : ℂ) := by
  show (((List.range kpath.length).flatMap
      (fun kk => fvelocityBlock gamma1 gamma2 (E t) y y0
        (fvelocity_ecv sys E_dir y kpath)
        (fvelocity_dipole dipole E_dir dipole_off y kpath)
        (fvelocity_A dipole E_dir dipole_off y kpath) kk))
    ++ [((-(E t) : ℝ) : ℂ)]).getD (4*kpath.length) 0 = _
  exact rhs_getD_last _ (fun i => fvelocityBlock_length _ _ _ _ _ _ _ _ _) _ _

/-- C8: for every time `t`, the pulse-field closure built by
`make_electric_field` from amplitude `E0`, centre frequency `w`, chirp rate
`chirp`, Gaussian width `alpha` and carrier-envelope phase `phase` returns
exactly `E0 * exp(-t^2/(2*alpha)^2) * sin(2*pi*w*t*(1 + chirp*t) + phase)`
(the spec-side formula `electric_field_spec`); as a Lean function of `t` and
the five captured parameters it is pure by construction. -/
theorem make_electric_field_matches_spec (E0 w alpha chirp phase t : ℝ) :
    make_electric_field E0 w alpha chirp phase t
      = electric_field_spec E0 w alpha chirp phase t := rfl

/-- C9: constructing the right-hand side with gauge selector `"length"` or
`"velocity"` succeeds and returns the corresponding right-hand side, while any
other selector raises immediately at setup, before any integration step. -/
theorem make_fnumba_gauge_dispatch (sys : BandSys) (dipole : DipoleSys)
    (E_dir : ℝ × ℝ) (gamma1 gamma2 : ℝ) (electric_field : ℝ → ℝ)
    (dipole_off : Bool) :
    make_fnumba sys dipole E_dir gamma1 gamma2 electric_field ("length") dipole_off
        = Except.ok (flength gamma1 gamma2 electric_field)
    ∧ make_fnumba sys dipole E_dir gamma1 gamma2 electric_field ("velocity") dipole_off
        = Except.ok (fvelocity sys dipole E_dir dipole_off gamma1 gamma2 electric_field)
    ∧ ∀ gauge : String, gauge ≠ "length" → gauge ≠ "velocity" →
        make_fnumba sys dipole E_dir gamma1 gamma2 electric_field gauge dipole_off
          = Except.error ("You have to either assign velocity or length gauge") := by
  refine ⟨rfl, rfl, ?_⟩
  intro gauge h1 h2
  rw [make_fnumba, if_neg h1, if_neg h2]

/-- Witness for C9: the selector `"foo"` is rejected at setup. -/
theorem make_fnumba_gauge_dispatch_witness :
    ("foo" : String) ≠ "length" ∧ ("foo" : String) ≠ "velocity"
    ∧ make_fnumba ⟨fun _ _ => 0, fun _ _ => 0⟩
        ⟨fun _ _ => 0, fun _ _ => 0, fun _ _ => 0, fun _ _ => 0,
          fun _ _ => 0, fun _ _ => 0⟩
        (0,0) 0 0 (fun _ => 0) ("foo") false
        = Except.error ("You have to either assign velocity or length gauge") :=
  ⟨by decide, by decide,
    (make_fnumba_gauge_dispatch _ _ _ _ _ _ _).2.2 ("foo") (by decide) (by decide)⟩

/-- C10: the velocity-gauge right-hand side does not depend on the precomputed
per-path coefficient arguments: for every time, state, path and spacing, two
calls that differ only in the passed-in `ecv_in_path`, `dipole_in_path` and
`A_in_path` arrays return identical derivative vectors, because `fvelocity`
rebinds all three from the shifted coordinates before any use. -/
theorem fvelocity_ignores_precomputed_coeffs (sys : BandSys)
    (dipole : DipoleSys) (E_dir : ℝ × ℝ) (dipole_off : Bool)
    (gamma1 gamma2 : ℝ) (electric_field : ℝ → ℝ) (t : ℝ) (y : List ℂ)
    (kpath : List (ℝ × ℝ)) (dk : ℝ) (ecv1 ecv2 : List ℝ)
    (dip1 dip2 A1 A2 : List ℂ) (y0 : List ℂ) :
    fvelocity sys dipole E_dir dipole_off gamma1 gamma2 electric_field
        t y kpath dk ecv1 dip1 A1 y0
      = fvelocity sys dipole E_dir dipole_off gamma1 gamma2 electric_field
        t y kpath dk ecv2 dip2 A2 y0 := rfl

/-- C7 fails on the code: with a single k-point (`Nk_path = 1`), the
length-gauge neighbour computation at `k = 0` yields the forward offset
`m = 4*(k+1) = 4`, so the update loop reads `y[m+3] = y[7]` past the end of
the `4*1+1 = 5`-component state vector (an out-of-bounds access, not a
wrap-around to self), and the two-line mesh spacing divides by
`Nk_in_path - 1 = 0`. -/
theorem nk1_neighbor_oob_and_dk_div_zero :
    flength_m 1 0 = 4 ∧ 4*1 + 1 ≤ flength_m 1 0 + 3
    ∧ ∀ L : ℝ, mesh_dk L 1 = L / 0 := by
  refine ⟨rfl, by norm_num [flength_m], ?_⟩
  intro L
  rw [mesh_dk]
  norm_num

/-- C4 fails on the code (failing input): at temperature `0` (below the
threshold), Fermi level `1` and conduction energies `[0]` (below the Fermi
level, so the claimed step function would give conduction occupation `1`),
the boolean mask `(e_fermi - e_c) < 0` is `[false]`, `ones[mask]` is the
empty list, and the four rows handed to `flatten('F')` are ragged — the
builder does not return a state with 4 components per k-point at all
(modelled as `none`). -/
theorem initial_condition_cold_mask_fault :
    initial_condition 1 0 [0] = none := by
  rw [initial_condition]
  rw [if_neg (by norm_num : ¬((0:ℝ) > 1e-5))]
  have h1 : decide ((1:ℝ) - 0 < 0) = false := decide_eq_false (by norm_num)
  simp only [List.map_cons, List.map_nil, h1, List.length_cons, List.length_nil]
  rw [flattenF]
  rw [if_neg]
  intro h
  have h2 := h (boolIndex (List.replicate (0+1) 1) [false]) (by simp)
  simp [boolIndex] at h2

/-- For `2 ≤ N` and `k < N`, the branchy forward-neighbour offset of the update
loop agrees with periodic modular indexing: `m = 4*((k+1) mod N)`. -/
lemma flength_m_eq_mod (N k : ℕ) (hN : 2 ≤ N) (hk : k < N) :
    flength_m N k = 4*((k+1) % N) := by
  rw [flength_m]
  by_cases h0 : k = 0
  · subst h0
    rw [if_pos rfl, Nat.mod_eq_of_lt (by omega)]
  · rw [if_neg h0]
    by_cases h1 : k = N - 1
    · rw [if_pos h1]
      have hkN : k + 1 = N := by omega
      rw [hkN, Nat.mod_self, Nat.mul_zero]
    · rw [if_neg h1, Nat.mod_eq_of_lt (by omega)]

/-- For `2 ≤ N` and `k < N`, the branchy backward-neighbour offset of the
update loop agrees with periodic modular indexing: `n = 4*((k-1) mod N)`,
where `(k-1) mod N` is written `(k+N-1) % N` to wrap at `k = 0`. -/
lemma flength_n_eq_mod (N k : ℕ) (hN : 2 ≤ N) (hk : k < N) :
    flength_n N k = 4*((k + N - 1) % N) := by
  rw [flength_n]
  by_cases h0 : k = 0
  · subst h0
    rw [if_pos rfl, Nat.mod_eq_of_lt (by omega)]
    omega
  · rw [if_neg h0]
    have hrw : k + N - 1 = N + (k - 1) := by omega
    have hmod : (k + N - 1) % N = k - 1 := by
      rw [hrw, Nat.add_mod_left, Nat.mod_eq_of_lt (by omega)]
    by_cases h1 : k = N - 1
    · rw [if_pos h1, hmod]
    · rw [if_neg h1, hmod]

/-- Claim C1 at one k-index of a path of length `N`: the length-gauge
right-hand side returns
`d(f_v)/dt  = 2 Im(wr p_vc) + D (f_v[m] - f_v[n]) - gamma1 (f_v - f_v0)`,
`d(p_vc)/dt = (i ecv - gamma2 + i wr_diag) p_vc - i conj(wr) (f_v - f_c) + D (p_vc[m] - p_vc[n])`,
`d(p_cv)/dt = conjugate(d(p_vc)/dt)` and
`d(f_c)/dt  = -2 Im(wr p_vc) + D (f_c[m] - f_c[n]) - gamma1 (f_c - f_c0)`,
with periodic neighbours `m = (k+1) mod N` and `n = (k-1) mod N` (the latter
written `(k+N-1) % N`), `D = E(t)/(2 dk)`, `wr = dipole[k]*E(t)`,
`wr_diag = diagdip[k]*E(t)` and the initial populations `f_v0`, `f_c0` as
relaxation targets. -/
def LengthGaugeUpdateClaim (gamma1 gamma2 : ℝ) (E : ℝ → ℝ) (t : ℝ)
    (y : List ℂ) (kpath : List (ℝ × ℝ)) (dk : ℝ) (ecv_in_path : List ℝ)
    (dipole_in_path A_in_path : List ℂ) (y0 : List ℂ) (k : ℕ) : Prop :=
  let N := kpath.length
  let x := flength gamma1 gamma2 E t y kpath dk ecv_in_path dipole_in_path
    A_in_path y0
  let D := E t / (2*dk)
  let wr := dipole_in_path.getD k 0 * (E t : ℂ)
  let wr_diag := A_in_path.getD k 0 * (E t : ℂ)
  let m := (k+1) % N
  let n := (k + N - 1) % N
  x.getD (4*k) 0
      = ((2*(wr * y.getD (4*k+1) 0).im : ℝ) : ℂ)
        + (D : ℂ)*(y.getD (4*m) 0 - y.getD (4*n) 0)
        - (gamma1 : ℂ)*(y.getD (4*k) 0 - y0.getD (4*k) 0)
  ∧ x.getD (4*k+1) 0
      = (Complex.I*(ecv_in_path.getD k 0 : ℂ) - (gamma2 : ℂ) + Complex.I*wr_diag)
          * y.getD (4*k+1) 0
        - Complex.I*((starRingEnd ℂ) wr)*(y.getD (4*k) 0 - y.getD (4*k+3) 0)
        + (D : ℂ)*(y.getD (4*m+1) 0 - y.getD (4*n+1) 0)
  ∧ x.getD (4*k+2) 0 = (starRingEnd ℂ) (x.getD (4*k+1) 0)
  ∧ x.getD (4*k+3) 0
      = ((-2*(wr * y.getD (4*k+1) 0).im : ℝ) : ℂ)
        + (D : ℂ)*(y.getD (4*m+3) 0 - y.getD (4*n+3) 0)
        - (gamma1 : ℂ)*(y.getD (4*k+3) 0 - y0.getD (4*k+3) 0)

/-- C1: for every k-index of a path (of length at least 2, the data-model path
invariant), the assembled length-gauge right-hand side satisfies the claimed
update equations with periodic modular neighbours. -/
theorem flength_update_equations (gamma1 gamma2 : ℝ) (E : ℝ → ℝ) (t : ℝ)
    (y : List ℂ) (kpath : List (ℝ × ℝ)) (dk : ℝ) (ecv_in_path : List ℝ)
    (dipole_in_path A_in_path : List ℂ) (y0 : List ℂ) (k : ℕ)
    (hN : 2 ≤ kpath.length) (hk : k < kpath.length) :
    LengthGaugeUpdateClaim gamma1 gamma2 E t y kpath dk ecv_in_path
      dipole_in_path A_in_path y0 k := by
  have hm := flength_m_eq_mod kpath.length k hN hk
  have hn := flength_n_eq_mod kpath.length k hN hk
  have h0 := flength_getD_block gamma1 gamma2 E t y kpath dk ecv_in_path
    dipole_in_path A_in_path y0 k 0 hk (by omega)
  have h1 := flength_getD_block gamma1 gamma2 E t y kpath dk ecv_in_path
    dipole_in_path A_in_path y0 k 1 hk (by omega)
  have h2 := flength_getD_block gamma1 gamma2 E t y kpath dk ecv_in_path
    dipole_in_path A_in_path y0 k 2 hk (by omega)
  have h3 := flength_getD_block gamma1 gamma2 E t y kpath dk ecv_in_path
    dipole_in_path A_in_path y0 k 3 hk (by omega)
  rw [Nat.add_zero] at h0
  refine ⟨?_, ?_, ?_, ?_⟩
  · rw [h0]
    simp only [flengthBlock, List.getD_cons_zero, hm, hn]
  · rw [h1]
    simp only [flengthBlock, List.getD_cons_succ, List.getD_cons_zero, hm, hn]
  · rw [h2, h1]
    simp only [flengthBlock, List.getD_cons_succ, List.getD_cons_zero]
  · rw [h3]
    simp only [flengthBlock, List.getD_cons_succ, List.getD_cons_zero, hm, hn]

/-- Witness for C1: a concrete two-point path at `k = 0`. -/
theorem flength_update_equations_witness :
    2 ≤ ([((0:ℝ),(0:ℝ)), ((1:ℝ),(0:ℝ))] : List (ℝ × ℝ)).length
    ∧ 0 < ([((0:ℝ),(0:ℝ)), ((1:ℝ),(0:ℝ))] : List (ℝ × ℝ)).length
    ∧ LengthGaugeUpdateClaim 1 1 (fun _ => 1) 0
        ([1, 0, 0, 0, 1, 0, 0, 0, 0] : List ℂ)
        [((0:ℝ),(0:ℝ)), ((1:ℝ),(0:ℝ))] 1 [1, 1] [0, 0] [0, 0]
        ([1, 0, 0, 0, 1, 0, 0, 0, 0] : List ℂ) 0 :=
  ⟨by decide, by decide,
    flength_update_equations 1 1 (fun _ => 1) 0
      ([1, 0, 0, 0, 1, 0, 0, 0, 0] : List ℂ)
      [((0:ℝ),(0:ℝ)), ((1:ℝ),(0:ℝ))] 1 [1, 1] [0, 0] [0, 0]
      ([1, 0, 0, 0, 1, 0, 0, 0, 0] : List ℂ) 0 (by decide) (by decide)⟩

/-- C5: in either gauge, for every state whose `p_cv` component is the
conjugate of its `p_vc` component at every k-point, the returned derivative
vector again satisfies `x[4k+2] = conjugate(x[4k+1])` at every k-point — the
solver writes the conjugate by construction, so conjugate-symmetric initial
data stays conjugate-symmetric under integration of this right-hand side. -/
theorem rhs_preserves_conjugate_pairing (sys : BandSys) (dipole : DipoleSys)
    (E_dir : ℝ × ℝ) (dipole_off : Bool) (gamma1 gamma2 : ℝ) (E : ℝ → ℝ)
    (t : ℝ) (y : List ℂ) (kpath : List (ℝ × ℝ)) (dk : ℝ)
    (ecv_in_path : List ℝ) (dipole_in_path A_in_path : List ℂ) (y0 : List ℂ)
    (hy : ∀ k, k < kpath.length →
      y.getD (4*k+2) 0 = (starRingEnd ℂ) (y.getD (4*k+1) 0))
    (k : ℕ) (hk : k < kpath.length) :
    (flength gamma1 gamma2 E t y kpath dk ecv_in_path dipole_in_path
        A_in_path y0).getD (4*k+2) 0
      = (starRingEnd ℂ) ((flength gamma1 gamma2 E t y kpath dk ecv_in_path
          dipole_in_path A_in_path y0).getD (4*k+1) 0)
    ∧ (fvelocity sys dipole E_dir dipole_off gamma1 gamma2 E t y kpath dk
        ecv_in_path dipole_in_path A_in_path y0).getD (4*k+2) 0
      = (starRingEnd ℂ) ((fvelocity sys dipole E_dir dipole_off gamma1 gamma2
          E t y kpath dk ecv_in_path dipole_in_path A_in_path y0).getD (4*k+1) 0) := by
  constructor
  · rw [flength_getD_block gamma1 gamma2 E t y kpath dk ecv_in_path
      dipole_in_path A_in_path y0 k 2 hk (by omega),
      flength_getD_block gamma1 gamma2 E t y kpath dk ecv_in_path
      dipole_in_path A_in_path y0 k 1 hk (by omega)]
    simp only [flengthBlock, List.getD_cons_succ, List.getD_cons_zero]
  · rw [fvelocity_getD_block sys dipole E_dir dipole_off gamma1 gamma2 E t y
      kpath dk ecv_in_path dipole_in_path A_in_path y0 k 2 hk (by omega),
      fvelocity_getD_block sys dipole E_dir dipole_off gamma1 gamma2 E t y
      kpath dk ecv_in_path dipole_in_path A_in_path y0 k 1 hk (by omega)]
    simp only [fvelocityBlock, List.getD_cons_succ, List.getD_cons_zero]

/-- Witness for C5: a concrete conjugate-symmetric state on a two-point path. -/
theorem rhs_preserves_conjugate_pairing_witness :
    (∀ k, k < ([((0:ℝ),(0:ℝ)), ((1:ℝ),(0:ℝ))] : List (ℝ × ℝ)).length →
      (([1, Complex.I, -Complex.I, 0, 1, 0, 0, 0, 0] : List ℂ)).getD (4*k+2) 0
        = (starRingEnd ℂ) ((([1, Complex.I, -Complex.I, 0, 1, 0, 0, 0, 0] : List ℂ)).getD (4*k+1) 0))
    ∧ 0 < ([((0:ℝ),(0:ℝ)), ((1:ℝ),(0:ℝ))] : List (ℝ × ℝ)).length
    ∧ ((flength 1 1 (fun _ => 1) 0 ([1, Complex.I, -Complex.I, 0, 1, 0, 0, 0, 0] : List ℂ)
          [((0:ℝ),(0:ℝ)), ((1:ℝ),(0:ℝ))] 1 [1, 1] [0, 0] [0, 0]
          ([1, 0, 0, 0, 1, 0, 0, 0, 0] : List ℂ)).getD (4*0+2) 0
        = (starRingEnd ℂ) ((flength 1 1 (fun _ => 1) 0
          ([1, Complex.I, -Complex.I, 0, 1, 0, 0, 0, 0] : List ℂ)
          [((0:ℝ),(0:ℝ)), ((1:ℝ),(0:ℝ))] 1 [1, 1] [0, 0] [0, 0]
          ([1, 0, 0, 0, 1, 0, 0, 0, 0] : List ℂ)).getD (4*0+1) 0)
      ∧ (fvelocity ⟨fun _ _ => 0, fun _ _ => 0⟩
          ⟨fun _ _ => 0, fun _ _ => 0, fun _ _ => 0, fun _ _ => 0,
            fun _ _ => 0, fun _ _ => 0⟩ (1,0) false 1 1 (fun _ => 1) 0
          ([1, Complex.I, -Complex.I, 0, 1, 0, 0, 0, 0] : List ℂ)
          [((0:ℝ),(0:ℝ)), ((1:ℝ),(0:ℝ))] 1 [1, 1] [0, 0] [0, 0]
          ([1, 0, 0, 0, 1, 0, 0, 0, 0] : List ℂ)).getD (4*0+2) 0
        = (starRingEnd ℂ) ((fvelocity ⟨fun _ _ => 0, fun _ _ => 0⟩
          ⟨fun _ _ => 0, fun _ _ => 0, fun _ _ => 0, fun _ _ => 0,
            fun _ _ => 0, fun _ _ => 0⟩ (1,0) false 1 1 (fun _ => 1) 0
          ([1, Complex.I, -Complex.I, 0, 1, 0, 0, 0, 0] : List ℂ)
          [((0:ℝ),(0:ℝ)), ((1:ℝ),(0:ℝ))] 1 [1, 1] [0, 0] [0, 0]
          ([1, 0, 0, 0, 1, 0, 0, 0, 0] : List ℂ)).getD (4*0+1) 0)) :=
  ⟨by
    intro k hk
    have hk2 : k < 2 := by simpa using hk
    interval_cases k <;> simp [Complex.ext_iff],
   by decide,
   rhs_preserves_conjugate_pairing ⟨fun _ _ => 0, fun _ _ => 0⟩
      ⟨fun _ _ => 0, fun _ _ => 0, fun _ _ => 0, fun _ _ => 0,
        fun _ _ => 0, fun _ _ => 0⟩ (1,0) false 1 1 (fun _ => 1) 0
      ([1, Complex.I, -Complex.I, 0, 1, 0, 0, 0, 0] : List ℂ)
      [((0:ℝ),(0:ℝ)), ((1:ℝ),(0:ℝ))] 1 [1, 1] [0, 0] [0, 0]
      ([1, 0, 0, 0, 1, 0, 0, 0, 0] : List ℂ)
      (by
        intro k hk
        have hk2 : k < 2 := by simpa using hk
        interval_cases k <;> simp [Complex.ext_iff])
      0 (by decide)⟩

/-- Claim C2 at one k-index: the velocity-gauge right-hand side first shifts
the path coordinates by the trailing state component (the accumulated vector
potential `y[-1].real`) along the field direction, re-evaluates the transition
energy and dipole coefficients at the shifted coordinates via the band model,
and then applies the same per-k update equations as the length gauge but with
no k-space gradient term; the trailing component evolves as `-E(t)`.  The
shifted coordinates and recomputed coefficients are spelled out literally. -/
def VelocityGaugeUpdateClaim (sys : BandSys) (dipole : DipoleSys)
    (E_dir : ℝ × ℝ) (gamma1 gamma2 : ℝ) (E : ℝ → ℝ) (t : ℝ) (y : List ℂ)
    (kpath : List (ℝ × ℝ)) (dk : ℝ) (ecv_in_path : List ℝ)
    (dipole_in_path A_in_path : List ℂ) (y0 : List ℂ) (k : ℕ) : Prop :=
  let x := fvelocity sys dipole E_dir false gamma1 gamma2 E t y kpath dk
    ecv_in_path dipole_in_path A_in_path y0
  let kxs := (kpath.getD k (0,0)).1 + E_dir.1 * (y.getD (y.length - 1) 0).re
  let kys := (kpath.getD k (0,0)).2 + E_dir.2 * (y.getD (y.length - 1) 0).re
  let ecv := sys.ecf kxs kys - sys.evf kxs kys
  let dip := (E_dir.1 : ℂ) * dipole.di_01x kxs kys
    + (E_dir.2 : ℂ) * dipole.di_01y kxs kys
  let diagdip := (E_dir.1 : ℂ) * dipole.di_00x kxs kys
    + (E_dir.2 : ℂ) * dipole.di_00y kxs kys
    - ((E_dir.1 : ℂ) * dipole.di_11x kxs kys
      + (E_dir.2 : ℂ) * dipole.di_11y kxs kys)
  let wr := dip * (E t : ℂ)
  let wr_diag := diagdip * (E t : ℂ)
  x.getD (4*k) 0
      = ((2*(wr * y.getD (4*k+1) 0).im : ℝ) : ℂ)
        - (gamma1 : ℂ)*(y.getD (4*k) 0 - y0.getD (4*k) 0)
  ∧ x.getD (4*k+1) 0
      = (Complex.I*(ecv : ℂ) - (gamma2 : ℂ) + Complex.I*wr_diag)
          * y.getD (4*k+1) 0
        - Complex.I*((starRingEnd ℂ) wr)*(y.getD (4*k) 0 - y.getD (4*k+3) 0)
  ∧ x.getD (4*k+2) 0 = (starRingEnd ℂ) (x.getD (4*k+1) 0)
  ∧ x.getD (4*k+3) 0
      = ((-2*(wr * y.getD (4*k+1) 0).im : ℝ) : ℂ)
        - (gamma1 : ℂ)*(y.getD (4*k+3) 0 - y0.getD (4*k+3) 0)
  ∧ x.getD (4*kpath.length) 0 = ((-(E t) : ℝ) : ℂ)

/-- C2: for every k-index of the path, the velocity-gauge right-hand side
satisfies the claimed shifted-coefficient, gradient-free update equations. -/
theorem fvelocity_update_equations (sys : BandSys) (dipole : DipoleSys)
    (E_dir : ℝ × ℝ) (gamma1 gamma2 : ℝ) (E : ℝ → ℝ) (t : ℝ) (y : List ℂ)
    (kpath : List (ℝ × ℝ)) (dk : ℝ) (ecv_in_path : List ℝ)
    (dipole_in_path A_in_path : List ℂ) (y0 : List ℂ) (k : ℕ)
    (hk : k < kpath.length) :
    VelocityGaugeUpdateClaim sys dipole E_dir gamma1 gamma2 E t y kpath dk
      ecv_in_path dipole_in_path A_in_path y0 k := by
  have h0 := fvelocity_getD_block sys dipole E_dir false gamma1 gamma2 E t y
    kpath dk ecv_in_path dipole_in_path A_in_path y0 k 0 hk (by omega)
  have h1 := fvelocity_getD_block sys dipole E_dir false gamma1 gamma2 E t y
    kpath dk ecv_in_path dipole_in_path A_in_path y0 k 1 hk (by omega)
  have h2 := fvelocity_getD_block sys dipole E_dir false gamma1 gamma2 E t y
    kpath dk ecv_in_path dipole_in_path A_in_path y0 k 2 hk (by omega)
  have h3 := fvelocity_getD_block sys dipole E_dir false gamma1 gamma2 E t y
    kpath dk ecv_in_path dipole_in_path A_in_path y0 k 3 hk (by omega)
  rw [Nat.add_zero] at h0
  refine ⟨?_, ?_, ?_, ?_, ?_⟩
  · rw [h0]
    simp only [fvelocityBlock, List.getD_cons_zero, fvelocity_dipole,
      fvelocity_kx, fvelocity_ky, if_neg Bool.false_ne_true]
  · rw [h1]
    simp only [fvelocityBlock, List.getD_cons_succ, List.getD_cons_zero,
      fvelocity_dipole, fvelocity_A, fvelocity_ecv, fvelocity_kx,
      fvelocity_ky, if_neg Bool.false_ne_true]
  · rw [h2, h1]
    simp only [fvelocityBlock, List.getD_cons_succ, List.getD_cons_zero]
  · rw [h3]
    simp only [fvelocityBlock, List.getD_cons_succ, List.getD_cons_zero,
      fvelocity_dipole, fvelocity_kx, fvelocity_ky, if_neg Bool.false_ne_true]
  · exact fvelocity_getD_last sys dipole E_dir false gamma1 gamma2 E t y
      kpath dk ecv_in_path dipole_in_path A_in_path y0

/-- Witness for C2: a concrete two-point path at `k = 0`. -/
theorem fvelocity_update_equations_witness :
    0 < ([((0:ℝ),(0:ℝ)), ((1:ℝ),(0:ℝ))] : List (ℝ × ℝ)).length
    ∧ VelocityGaugeUpdateClaim ⟨fun _ _ => 0, fun x _ => x⟩
        ⟨fun _ _ => 1, fun _ _ => 1, fun _ _ => 1, fun _ _ => 1,
          fun _ _ => 1, fun _ _ => 1⟩ (1,0) 1 1 (fun _ => 1) 0
        ([1, 0, 0, 0, 1, 0, 0, 0, 0] : List ℂ)
        [((0:ℝ),(0:ℝ)), ((1:ℝ),(0:ℝ))] 1 [1, 1] [0, 0] [0, 0]
        ([1, 0, 0, 0, 1, 0, 0, 0, 0] : List ℂ) 0 :=
  ⟨by decide,
    fvelocity_update_equations ⟨fun _ _ => 0, fun x _ => x⟩
      ⟨fun _ _ => 1, fun _ _ => 1, fun _ _ => 1, fun _ _ => 1,
        fun _ _ => 1, fun _ _ => 1⟩ (1,0) 1 1 (fun _ => 1) 0
      ([1, 0, 0, 0, 1, 0, 0, 0, 0] : List ℂ)
      [((0:ℝ),(0:ℝ)), ((1:ℝ),(0:ℝ))] 1 [1, 1] [0, 0] [0, 0]
      ([1, 0, 0, 0, 1, 0, 0, 0, 0] : List ℂ) 0 (by decide)⟩

/-- Reads past the end of the length-gauge derivative vector (model default). -/
lemma flength_getD_beyond (gamma1 gamma2 : ℝ) (E : ℝ → ℝ) (t : ℝ) (y : List ℂ)
    (kpath : List (ℝ × ℝ)) (dk : ℝ) (ecv_in_path : List ℝ)
    (dipole_in_path A_in_path : List ℂ) (y0 : List ℂ) (j : ℕ)
    (hj : 4*kpath.length + 1 ≤ j) :
    (flength gamma1 gamma2 E t y kpath dk ecv_in_path dipole_in_path
        A_in_path y0).getD j 0 = 0 := by
  show (((List.range kpath.length).flatMap
      (fun kk => flengthBlock gamma1 gamma2 (E t) (E t/(2*dk)) y y0 ecv_in_path
        dipole_in_path A_in_path kpath.length kk))
    ++ [((-(E t) : ℝ) : ℂ)]).getD j 0 = 0
  exact rhs_getD_beyond _ (fun i => flengthBlock_length _ _ _ _ _ _ _ _ _ _ _) _ _ _ hj

/-- Reads past the end of the velocity-gauge derivative vector (model default). -/
lemma fvelocity_getD_beyond (sys : BandSys) (dipole : DipoleSys)
    (E_dir : ℝ × ℝ) (dipole_off : Bool) (gamma1 gamma2 : ℝ) (E : ℝ → ℝ)
    (t : ℝ) (y : List ℂ) (kpath : List (ℝ × ℝ)) (dk : ℝ)
    (ecv_in_path : List ℝ) (dipole_in_path A_in_path : List ℂ) (y0 : List ℂ)
    (j : ℕ) (hj : 4*kpath.length + 1 ≤ j) :
    (fvelocity sys dipole E_dir dipole_off gamma1 gamma2 E t y kpath dk
        ecv_in_path dipole_in_path A_in_path y0).getD j 0 = 0 := by
  show (((List.range kpath.length).flatMap
      (fun kk => fvelocityBlock gamma1 gamma2 (E t) y y0
        (fvelocity_ecv sys E_dir y kpath)
        (fvelocity_dipole dipole E_dir dipole_off y kpath)
        (fvelocity_A dipole E_dir dipole_off y kpath) kk))
    ++ [((-(E t) : ℝ) : ℂ)]).getD j 0 = 0
  exact rhs_getD_beyond _ (fun i => fvelocityBlock_length _ _ _ _ _ _ _ _ _) _ _ _ hj

/-- With amplitude `E0 = 0` the pulse field vanishes identically. -/
lemma make_electric_field_zero_amp (w alpha chirp phase t : ℝ) :
    make_electric_field 0 w alpha chirp phase t = 0 := by
  simp [make_electric_field]

/-- Claim C6: with driving amplitude `E0 = 0`, the right-hand side in both
gauges, evaluated at the initial state `y0` (used both as the current state and
as the relaxation target), is identically zero; integration therefore leaves
populations and coherences at their initial values. -/
def ZeroFieldFixedPointClaim (sys : BandSys) (dipole : DipoleSys)
    (E_dir : ℝ × ℝ) (dipole_off : Bool) (gamma1 gamma2 w alpha chirp phase t : ℝ)
    (y0 : List ℂ) (kpath : List (ℝ × ℝ)) (dk : ℝ) (ecv_in_path : List ℝ)
    (dipole_in_path A_in_path : List ℂ) : Prop :=
  ∀ j : ℕ,
    (flength gamma1 gamma2 (make_electric_field 0 w alpha chirp phase) t y0
        kpath dk ecv_in_path dipole_in_path A_in_path y0).getD j 0 = 0
    ∧ (fvelocity sys dipole E_dir dipole_off gamma1 gamma2
        (make_electric_field 0 w alpha chirp phase) t y0 kpath dk ecv_in_path
        dipole_in_path A_in_path y0).getD j 0 = 0

/-- C6: with `E0 = 0`, an initial state with zero coherences and zero
accumulated vector potential is a fixed point of the dynamics in both gauges,
for every time, path (of length at least 2, the data-model invariant) and
k-point. -/
theorem zero_field_fixed_point (sys : BandSys) (dipole : DipoleSys)
    (E_dir : ℝ × ℝ) (dipole_off : Bool) (gamma1 gamma2 w alpha chirp phase t : ℝ)
    (y0 : List ℂ) (kpath : List (ℝ × ℝ)) (dk : ℝ) (ecv_in_path : List ℝ)
    (dipole_in_path A_in_path : List ℂ)
    (hN : 2 ≤ kpath.length) (hdk : dk ≠ 0)
    (hcoh1 : ∀ k, k < kpath.length → y0.getD (4*k+1) 0 = 0)
    (hcoh2 : ∀ k, k < kpath.length → y0.getD (4*k+2) 0 = 0)
    (hA : y0.getD (y0.length - 1) 0 = 0) :
    ZeroFieldFixedPointClaim sys dipole E_dir dipole_off gamma1 gamma2 w alpha
      chirp phase t y0 kpath dk ecv_in_path dipole_in_path A_in_path := by
  intro j
  by_cases hj : j < 4*kpath.length
  · obtain ⟨k, r, hk, hr, rfl⟩ : ∃ k r, k < kpath.length ∧ r < 4 ∧ j = 4*k+r :=
      ⟨j/4, j%4, by omega, by omega, by omega⟩
    have hc := hcoh1 k hk
    constructor
    · rw [flength_getD_block gamma1 gamma2 _ t y0 kpath dk ecv_in_path
        dipole_in_path A_in_path y0 k r hk hr, make_electric_field_zero_amp]
      interval_cases r
      · simp [flengthBlock]
      · simp only [flengthBlock, List.getD_cons_succ, List.getD_cons_zero]
        rw [hc]
        simp
      · simp only [flengthBlock, List.getD_cons_succ, List.getD_cons_zero]
        rw [hc]
        simp
      · simp [flengthBlock]
    · rw [fvelocity_getD_block sys dipole E_dir dipole_off gamma1 gamma2 _ t y0
        kpath dk ecv_in_path dipole_in_path A_in_path y0 k r hk hr,
        make_electric_field_zero_amp]
      interval_cases r
      · simp [fvelocityBlock]
      · simp only [fvelocityBlock, List.getD_cons_succ, List.getD_cons_zero]
        rw [hc]
        simp
      · simp only [fvelocityBlock, List.getD_cons_succ, List.getD_cons_zero]
        rw [hc]
        simp
      · simp [fvelocityBlock]
  · by_cases hj2 : j = 4*kpath.length
    · subst hj2
      constructor
      · rw [flength_getD_last, make_electric_field_zero_amp]
        simp
      · rw [fvelocity_getD_last, make_electric_field_zero_amp]
        simp
    · constructor
      · exact flength_getD_beyond gamma1 gamma2 _ t y0 kpath dk ecv_in_path
          dipole_in_path A_in_path y0 j (by omega)
      · exact fvelocity_getD_beyond sys dipole E_dir dipole_off gamma1 gamma2
          _ t y0 kpath dk ecv_in_path dipole_in_path A_in_path y0 j (by omega)

/-- Witness for C6: a concrete equilibrium state on a two-point path. -/
theorem zero_field_fixed_point_witness :
    2 ≤ ([((0:ℝ),(0:ℝ)), ((1:ℝ),(0:ℝ))] : List (ℝ × ℝ)).length
    ∧ (1:ℝ) ≠ 0
    ∧ (∀ k, k < ([((0:ℝ),(0:ℝ)), ((1:ℝ),(0:ℝ))] : List (ℝ × ℝ)).length →
        (([1, 0, 0, 0, 1, 0, 0, 0, 0] : List ℂ)).getD (4*k+1) 0 = 0)
    ∧ (∀ k, k < ([((0:ℝ),(0:ℝ)), ((1:ℝ),(0:ℝ))] : List (ℝ × ℝ)).length →
        (([1, 0, 0, 0, 1, 0, 0, 0, 0] : List ℂ)).getD (4*k+2) 0 = 0)
    ∧ (([1, 0, 0, 0, 1, 0, 0, 0, 0] : List ℂ)).getD
        ((([1, 0, 0, 0, 1, 0, 0, 0, 0] : List ℂ)).length - 1) 0 = 0
    ∧ ZeroFieldFixedPointClaim ⟨fun _ _ => 0, fun x _ => x⟩
        ⟨fun _ _ => 1, fun _ _ => 1, fun _ _ => 1, fun _ _ => 1,
          fun _ _ => 1, fun _ _ => 1⟩ (1,0) false 1 1 1 1 0 0 0
        ([1, 0, 0, 0, 1, 0, 0, 0, 0] : List ℂ)
        [((0:ℝ),(0:ℝ)), ((1:ℝ),(0:ℝ))] 1 [1, 1] [0, 0] [0, 0] :=
  ⟨by decide, by simp,
   by
    intro k hk
    have hk2 : k < 2 := by simpa using hk
    interval_cases k <;> rfl,
   by
    intro k hk
    have hk2 : k < 2 := by simpa using hk
    interval_cases k <;> rfl,
   by rfl,
   zero_field_fixed_point ⟨fun _ _ => 0, fun x _ => x⟩
      ⟨fun _ _ => 1, fun _ _ => 1, fun _ _ => 1, fun _ _ => 1,
        fun _ _ => 1, fun _ _ => 1⟩ (1,0) false 1 1 1 1 0 0 0
      ([1, 0, 0, 0, 1, 0, 0, 0, 0] : List ℂ)
      [((0:ℝ),(0:ℝ)), ((1:ℝ),(0:ℝ))] 1 [1, 1] [0, 0] [0, 0]
      (by decide) (by simp)
      (by
        intro k hk
        have hk2 : k < 2 := by simpa using hk
        interval_cases k <;> rfl)
      (by
        intro k hk
        have hk2 : k < 2 := by simpa using hk
        interval_cases k <;> rfl)
      (by rfl)⟩

/-- The 2×2 matrix product is associative. -/
lemma mul2_assoc (A B C : Fin 2 → Fin 2 → ℂ) :
    mul2 (mul2 A B) C = mul2 A (mul2 B C) := by
  funext i j
  simp only [mul2]
  ring

/-- A left fold over `List.range` whose step only adds to each component of a
pair accumulator is a pair of `Finset` sums. -/
lemma foldl_congr_then_sum (F : (ℝ × ℝ) → ℕ → (ℝ × ℝ)) (g h : ℕ → ℝ)
    (nn : ℕ) (hF : ∀ acc i, F acc i = (acc.1 + g i, acc.2 + h i)) (p : ℝ × ℝ) :
    List.foldl F p (List.range nn)
      = (p.1 + ∑ i ∈ Finset.range nn, g i, p.2 + ∑ i ∈ Finset.range nn, h i) := by
  induction nn generalizing p with
  | zero => simp
  | succ m ih =>
    rw [List.range_succ, List.foldl_append, ih]
    simp only [List.foldl_cons, List.foldl_nil, hF, Finset.sum_range_succ,
      Prod.ext_iff]
    constructor <;> ring

/-- The spec-side emission integrand of claim C3 at one k-point:
`Re(M[0,0])*(Re(f_v) - shift) + Re(M[1,1])*Re(f_c) + 2*Re(M[0,1]*p_cv)` with
`M = U_dagger * (dH/dk_dir) * U`, the triple matrix product written
left-associated exactly as the claim reads it. -/
def emissionIntegrand (sys : EmissionSys) (kx ky : ℂ) (d1 d2 : ℝ)
    (fv fc pcv : ℂ) (shift : ℝ) : ℝ :=
  let Hdir := fun (a b : Fin 2) =>
    mat2 (sys.hdx_00 kx ky) (sys.hdx_01 kx ky) (sys.hdx_10 kx ky)
      (sys.hdx_11 kx ky) a b * (d1 : ℂ)
    + mat2 (sys.hdy_00 kx ky) (sys.hdy_01 kx ky) (sys.hdy_10 kx ky)
      (sys.hdy_11 kx ky) a b * (d2 : ℂ)
  let U := mat2 (sys.U_00 kx ky) (sys.U_01 kx ky)
    (sys.U_10 kx ky) (sys.U_11 kx ky)
  let U_h := mat2 (sys.U_h_00 kx ky) (sys.U_h_01 kx ky)
    (sys.U_h_10 kx ky) (sys.U_h_11 kx ky)
  let M := mul2 (mul2 U_h Hdir) U
  (M 0 0).re * (fv.re - shift) + (M 1 1).re * fc.re + 2*((M 0 1) * pcv).re

/-- What the emission loop adds per sample coincides with the claim-side
integrand: `U_h @ (dH_dir @ U) = (U_h @ dH_dir) @ U` by associativity. -/
lemma emission_term_eq_integrand (sys : EmissionSys) (kx ky : ℂ) (d1 d2 : ℝ)
    (fv fc pcv : ℂ) (s : ℝ) :
    emission_term sys kx ky d1 d2 fv fc pcv s
      = emissionIntegrand sys kx ky d1 d2 fv fc pcv s := by
  simp only [emission_term, emission_UhHU, emissionIntegrand, mul2_assoc]

/-- Claim C3 at one output time index: the emission calculator accumulates,
over all k-points and all paths, the quantity
`Re(M[0,0])*(Re(f_v) - shift) + Re(M[1,1])*Re(f_c) + 2*Re(M[0,1]*p_cv)` with
`M = U_dagger*(dH/dk_dir)*U` evaluated at k-coordinates shifted by the
recorded vector potential along the field direction in velocity gauge (no
shift in length gauge); `shift` is 1 in velocity gauge and 0 in length gauge,
and the field-aligned and orthogonal series use the derivative matrix along
the respective direction. -/
def EmissionClaim (sys : EmissionSys) (paths : List (List (ℝ × ℝ)))
    (solution : ℕ → ℕ → ℕ → ℕ → ℂ) (E_dir : ℝ × ℝ) (A_field : ℕ → ℂ)
    (pathlen : ℕ) (i_time : ℕ) (gauge : Gauge) : Prop :=
  let A : ℂ := match gauge with
    | Gauge.length => 0
    | Gauge.velocity => A_field i_time
  let shift : ℝ := match gauge with
    | Gauge.length => 0
    | Gauge.velocity => 1
  emission_exact sys paths solution E_dir A_field gauge pathlen i_time
    = (∑ i_path ∈ Finset.range paths.length, ∑ i_k ∈ Finset.range pathlen,
        emissionIntegrand sys
          ((((paths.getD i_path []).getD i_k (0,0)).1 : ℂ) + A * (E_dir.1 : ℂ))
          ((((paths.getD i_path []).getD i_k (0,0)).2 : ℂ) + A * (E_dir.2 : ℂ))
          E_dir.1 E_dir.2
          (solution i_k i_path i_time 0) (solution i_k i_path i_time 3)
          (solution i_k i_path i_time 2) shift,
       ∑ i_path ∈ Finset.range paths.length, ∑ i_k ∈ Finset.range pathlen,
        emissionIntegrand sys
          ((((paths.getD i_path []).getD i_k (0,0)).1 : ℂ) + A * (E_dir.1 : ℂ))
          ((((paths.getD i_path []).getD i_k (0,0)).2 : ℂ) + A * (E_dir.2 : ℂ))
          E_dir.2 (-E_dir.1)
          (solution i_k i_path i_time 0) (solution i_k i_path i_time 3)
          (solution i_k i_path i_time 2) shift)

/-- C3: for every output time index and either gauge, the emission calculator
output equals the claimed double sum. -/
theorem emission_exact_formula (sys : EmissionSys)
    (paths : List (List (ℝ × ℝ))) (solution : ℕ → ℕ → ℕ → ℕ → ℂ)
    (E_dir : ℝ × ℝ) (A_field : ℕ → ℂ) (pathlen : ℕ) (i_time : ℕ)
    (gauge : Gauge) :
    EmissionClaim sys paths solution E_dir A_field pathlen i_time gauge := by
  cases gauge with
  | length =>
    simp only [EmissionClaim, emission_exact]
    refine Eq.trans (foldl_congr_then_sum _
      (fun i_path => ∑ i_k ∈ Finset.range pathlen, emission_term sys
        ((((paths.getD i_path []).getD i_k (0,0)).1 : ℂ) + 0)
        ((((paths.getD i_path []).getD i_k (0,0)).2 : ℂ) + 0)
        E_dir.1 E_dir.2 (solution i_k i_path i_time 0)
        (solution i_k i_path i_time 3) (solution i_k i_path i_time 2) 0)
      (fun i_path => ∑ i_k ∈ Finset.range pathlen, emission_term sys
        ((((paths.getD i_path []).getD i_k (0,0)).1 : ℂ) + 0)
        ((((paths.getD i_path []).getD i_k (0,0)).2 : ℂ) + 0)
        E_dir.2 (-E_dir.1) (solution i_k i_path i_time 0)
        (solution i_k i_path i_time 3) (solution i_k i_path i_time 2) 0)
      paths.length
      (fun acc i_path => foldl_congr_then_sum _ _ _ pathlen
        (fun acc2 i_k => rfl) acc)
      ((0:ℝ),(0:ℝ))) ?_
    simp only [zero_add, emission_term_eq_integrand, zero_mul, add_zero]
  | velocity =>
    simp only [EmissionClaim, emission_exact]
    refine Eq.trans (foldl_congr_then_sum _
      (fun i_path => ∑ i_k ∈ Finset.range pathlen, emission_term sys
        ((((paths.getD i_path []).getD i_k (0,0)).1 : ℂ)
          + A_field i_time * (E_dir.1 : ℂ))
        ((((paths.getD i_path []).getD i_k (0,0)).2 : ℂ)
          + A_field i_time * (E_dir.2 : ℂ))
        E_dir.1 E_dir.2 (solution i_k i_path i_time 0)
        (solution i_k i_path i_time 3) (solution i_k i_path i_time 2) 1)
      (fun i_path => ∑ i_k ∈ Finset.range pathlen, emission_term sys
        ((((paths.getD i_path []).getD i_k (0,0)).1 : ℂ)
          + A_field i_time * (E_dir.1 : ℂ))
        ((((paths.getD i_path []).getD i_k (0,0)).2 : ℂ)
          + A_field i_time * (E_dir.2 : ℂ))
        E_dir.2 (-E_dir.1) (solution i_k i_path i_time 0)
        (solution i_k i_path i_time 3) (solution i_k i_path i_time 2) 1)
      paths.length
      (fun acc i_path => foldl_congr_then_sum _ _ _ pathlen
        (fun acc2 i_k => rfl) acc)
      ((0:ℝ),(0:ℝ))) ?_
    simp only [zero_add, emission_term_eq_integrand]
